import Mathlib

/-!
# unikmer `subset`: extracting shorter k-mers from a binary k-mer file

A shallow embedding of `unikmer/cmd/subset.go` (the `Run` function of
`subsetCmd`) together with the parts of the `unikmer` package it calls.

* Bytes are natural numbers (`'A' = 65`, `'C' = 67`, `'G' = 71`, `'T' = 84`).
* A `uint64` is a natural number, reduced modulo `2^64` where it is computed.
* Go's three ways of leaving `Run` are kept apart: a normal `return`
  (deferred calls run, exit status zero), a call of `checkError` with a
  non-nil error (the process exits at once with a non-zero status) and a
  run-time panic.
-/

deriving instance DecidableEq for Except

namespace Unikmer

/-! ## KmerCodec -/

/-- A packed k-mer: the `uint64` value and the length `K` of the k-mer. -/
structure KmerCode where
  Code : Nat
  K : Nat
deriving DecidableEq, Repr

/-- The error of the codec: the offending byte and the sequence it was found in. -/
inductive CodecError where
  | InvalidSymbol (byte : Nat) (seq : List Nat)
deriving DecidableEq, Repr

/-- Modelled from the spec: the symbol table of `unikmer.Encode` (kmer.go is
not part of the sources at hand). Each recognised nucleotide maps to 2 bits,
`A, C, G, T` to `0, 1, 2, 3`; any other byte is not recognised. -/
def base2bit (b : Nat) : Option Nat :=
  if b = 65 then some 0
  else if b = 67 then some 1
  else if b = 71 then some 2
  else if b = 84 then some 3
  else none

/-- Modelled from the spec: the inverse table of `unikmer.Decode`, from the two
low bits of a value to the nucleotide byte. -/
def bit2base (n : Nat) : Nat :=
  if n % 4 = 0 then 65
  else if n % 4 = 1 then 67
  else if n % 4 = 2 then 71
  else 84

/-- The worker of `Encode`: packs the remaining symbols behind the bits
gathered so far, in 64-bit arithmetic. -/
def encodeFrom (seq : List Nat) : Nat → List Nat → Except CodecError Nat
  | acc, [] => .ok acc
  | acc, b :: bs =>
    match base2bit b with
    | none => .error (.InvalidSymbol b seq)
    | some v => encodeFrom seq ((acc * 4 + v) % 2 ^ 64) bs

/-- Modelled from the spec: `unikmer.Encode`, which maps each symbol to 2 bits
and packs left-to-right (most-significant symbol first) and fails with
`InvalidSymbol` on a byte that is not a recognised nucleotide. -/
def Encode (kmer : List Nat) : Except CodecError Nat :=
  encodeFrom kmer 0 kmer

/-- Modelled from the spec: `unikmer.Decode`, the inverse mapping of `Encode`;
the last symbol is held by the two least-significant bits. -/
def Decode : Nat → Nat → List Nat
  | _, 0 => []
  | code, L + 1 => Decode (code / 4) L ++ [bit2base code]

/-- Modelled from the spec: `unikmer.NewKmerCode`, which encodes a byte
sequence and records its length. -/
def NewKmerCode (kmer : List Nat) : Except CodecError KmerCode :=
  match Encode kmer with
  | .error e => .error e
  | .ok c => .ok ⟨c, kmer.length⟩

/-- Modelled from the spec: `KmerCode.Bytes`, the symbols of a packed k-mer. -/
def KmerCode.Bytes (kcode : KmerCode) : List Nat :=
  Decode kcode.Code kcode.K

/-- Modelled from the spec: `truncate(code, K, k)`, the pure bit shift that
keeps the most-significant `2*k` meaningful bits of a `K`-mer code. -/
def truncate (code K k : Nat) : Nat :=
  code >>> (2 * (K - k))

/-! ## Messages, events and the world around the run -/

/-- The errors the run reports, one constructor for each message of subset.go
and one for the errors handed up by the collaborators. -/
inductive Msg where
  /-- The message "no more than one file should be given". -/
  | tooManyFiles
  /-- A flag read by `getFlagPositiveInt` is not positive. -/
  | notPositive (flag : String)
  /-- The message "k > 32 not supported". -/
  | kTooLarge
  /-- The message "input should be stdin or %s file". -/
  | badInput (ext : String)
  /-- The message "k (%d) should be small than k size (%d) of %s". -/
  | kNotSmaller (k K : Nat) (file : String)
  /-- An error returned by `Ropen`, `NewReader`, `Read`, `WopenGzip` or `Write`. -/
  | io (e : String)
  /-- The message "encoding '%s': %s". -/
  | encoding (mer : List Nat) (e : CodecError)
deriving DecidableEq, Repr

/-- The messages that report a rejected parameter of the request. -/
def Msg.isParameterError : Msg → Bool
  | .tooManyFiles => true
  | .notPositive _ => true
  | .kTooLarge => true
  | .kNotSmaller _ _ _ => true
  | _ => false

/-- The result of one step that may end the run. -/
inductive Step (α : Type) where
  | ok (a : α)
  | fatal (msg : Msg)
  | panic
deriving DecidableEq, Repr

/-- The per-record transform of the loop (subset.go, lines 109-115):
`mer = kcode.Bytes(); mer = mer[0:k]; kcode2, err = NewKmerCode(mer)`.
The slice expression panics when `k` exceeds the length of `mer`; an encoding
error goes to `checkError`. -/
def transform (k : Nat) (kcode : KmerCode) : Step (List Nat × KmerCode) :=
  let mer := kcode.Bytes
  if k ≤ mer.length then
    let mer := mer.take k
    match NewKmerCode mer with
    | .error e => .fatal (.encoding mer e)
    | .ok kcode2 => .ok (mer, kcode2)
  else .panic

/-- What the run does to the outside, in order. -/
inductive Event where
  /-- An error is logged (`log.Errorf`, or `log.Error` inside `checkError`). -/
  | logError (msg : Msg)
  /-- The call `xopen.Ropen(file)` succeeded. -/
  | openInput (file : String)
  /-- The deferred `infh.Close()` ran. -/
  | closeInput
  /-- The call `xopen.WopenGzip(outFile)` succeeded: the file exists now. -/
  | openOutput (file : String)
  /-- The call `unikmer.NewWriter(outfh, k)`. -/
  | newWriter (k : Nat)
  /-- The call `writer.Write(kcode2)` succeeded. -/
  | write (kcode : KmerCode)
  /-- The deferred `outfh.Close()` ran: buffered output is flushed, the file closed. -/
  | closeOutput
deriving DecidableEq, Repr

/-- How `Run` is left. -/
inductive Exit where
  /-- The function returned; the command ends with exit status zero. -/
  | returned
  /-- The process was ended inside `checkError`, with a non-zero status. -/
  | exited
  /-- A run-time panic; deferred calls run, the status is non-zero. -/
  | panicked
deriving DecidableEq, Repr

/-- Whether the exit status of the process is non-zero. -/
def Exit.nonZero : Exit → Bool
  | .returned => false
  | .exited => true
  | .panicked => true

/-- The outcome of a run: its events and the way it ended. -/
structure Result where
  events : List Event
  exit : Exit
deriving DecidableEq, Repr

/-- The membership structure of the loop, `boom.ScalableBloomFilter` of an
external library: its creation from the hint, `Test` and `Add`. -/
structure ApproximateSet where
  State : Type
  init : Nat → State
  test : State → List Nat → Bool
  add : State → List Nat → State

/-- The state of the structure after the items of `xs` were added in turn. -/
def ApproximateSet.addAll (F : ApproximateSet) (hint : Nat) (xs : List (List Nat)) : F.State :=
  xs.foldl F.add (F.init hint)

/-- Everything outside the function that decides a run: the arguments and
flags, and the answers of the collaborators (file opening, the reader, the
writer). -/
structure World where
  /-- The result of `getFileList(args)`. -/
  files : List String
  /-- The flag `out-prefix`. -/
  outFile : String
  /-- The flag `kmer-len`. -/
  k : Nat
  /-- The flag `esti-kmer-num`. -/
  hint : Nat
  /-- The constant `extDataFile`. -/
  extDataFile : String
  /-- The helper `isStdin`. -/
  isStdin : String → Bool
  /-- The helper `isStdout`. -/
  isStdout : String → Bool
  /-- The error of `xopen.Ropen(file)`, if any. -/
  ropen : String → Option String
  /-- The result of `unikmer.NewReader(infh)`: an error, or the width `reader.K`
  declared by the header. -/
  header : Except String Nat
  /-- The `uint64` values that `reader.Read()` delivers, in order. -/
  records : List Nat
  /-- What `reader.Read()` returns after them: `io.EOF` (`none`) or an error. -/
  readEnd : Option String
  /-- The error of `xopen.WopenGzip(outFile)`, if any. -/
  wopen : String → Option String
  /-- The error of the `n`-th call of `writer.Write`, if any (counted from 0). -/
  writeErr : Nat → Option String

/-- The test `strings.HasSuffix(file, ext)`. -/
def hasSuffix (file ext : String) : Bool :=
  ext.data.isSuffixOf file.data

/-! ## The run -/

/-- Modelled from the spec: `getFlagPositiveInt` (the flag helpers of the
command-line layer are not part of the sources at hand), which hands on the
value of a flag that is a positive integer and reports any other value as an
error to `checkError`. -/
def getFlagPositiveInt (flag : String) (value : Nat) : Except Msg Nat :=
  if value = 0 then .error (.notPositive flag) else .ok value

/-- Modelled from the spec: `checkError` on a non-nil error (cmd/util.go is not
part of the sources at hand): the error is reported and the process exits
non-zero. `done` holds the events of the run so far; the exit of the process
runs no deferred call, so nothing follows the report. -/
def checkError (done : List Event) (err : Msg) : Result :=
  ⟨done ++ [.logError err], .exited⟩

/-- The streaming loop (subset.go, lines 100-121) from the filter state `sbf`,
with `n` records written so far, on the values the reader still delivers, for
the target length `k`. `reader.Read()` returns each value as a code of the
width `K` of the header. -/
def subsetLoop (F : ApproximateSet) (w : World) (k K : Nat) :
    F.State → Nat → List Nat → Result
  | _, _, [] =>
    match w.readEnd with
    | none => ⟨[], .returned⟩
    | some e => checkError [] (.io e)
  | sbf, n, c :: rest =>
    match transform k ⟨c, K⟩ with
    | .panic => ⟨[], .panicked⟩
    | .fatal msg => checkError [] msg
    | .ok (mer, kcode2) =>
      if F.test sbf mer then subsetLoop F w k K sbf n rest
      else
        match w.writeErr n with
        | some e => checkError [] (.io e)
        | none =>
          let r := subsetLoop F w k K (F.add sbf mer) (n + 1) rest
          ⟨.write kcode2 :: r.events, r.exit⟩

/-- The function `Run` of `subsetCmd` (subset.go, lines 47-122). A `return`
runs the deferred calls, last registered first, and so does a panic; leaving
through `checkError` does not. -/
def Run (F : ApproximateSet) (w : World) : Result :=
  if w.files.length > 1 then checkError [] .tooManyFiles
  else
    match getFlagPositiveInt "kmer-len" w.k with
    | .error m => checkError [] m
    | .ok k =>
      if k > 32 then checkError [] .kTooLarge
      else
        match getFlagPositiveInt "esti-kmer-num" w.hint with
        | .error m => checkError [] m
        | .ok hint =>
          match w.files.head? with
          | none => ⟨[], .panicked⟩
          | some file =>
            if !w.isStdin file && !hasSuffix file w.extDataFile then
              ⟨[.logError (.badInput w.extDataFile)], .returned⟩
            else
              match w.ropen file with
              | some e => checkError [] (.io e)
              | none =>
                match w.header with
                | .error e => checkError [.openInput file] (.io e)
                | .ok K =>
                  if k ≥ K then
                    ⟨[.openInput file, .logError (.kNotSmaller k K file), .closeInput], .returned⟩
                  else
                    let outFile :=
                      if w.isStdout w.outFile then w.outFile else w.outFile ++ w.extDataFile
                    match w.wopen outFile with
                    | some e => checkError [.openInput file] (.io e)
                    | none =>
                      let start := [Event.openInput file, .openOutput outFile, .newWriter k]
                      let r := subsetLoop F w k K (F.init hint) 0 w.records
                      match r.exit with
                      | .exited => ⟨start ++ r.events, .exited⟩
                      | e => ⟨start ++ r.events ++ [.closeOutput, .closeInput], e⟩

/-- The codes written by a run, in order. -/
def written : List Event → List KmerCode
  | [] => []
  | .write c :: es => c :: written es
  | _ :: es => written es

/-! ## Example inputs -/

/-- An exact set: a list of the items added. -/
def exactSet : ApproximateSet where
  State := List (List Nat)
  init := fun _ => []
  test := fun s x => s.contains x
  add := fun s x => x :: s

/-- A lossy set: it keeps only the sum of the bytes of an item modulo 8, so
distinct items may collide. -/
def lossySet : ApproximateSet where
  State := List Nat
  init := fun _ => []
  test := fun s x => s.contains (x.sum % 8)
  add := fun s x => (x.sum % 8) :: s

/-- A world in which every collaborator succeeds: one input file `in.unik` of
width `K` delivering `records`, output prefix `out`. -/
def okWorld (K k : Nat) (records : List Nat) : World where
  files := ["in.unik"]
  outFile := "out"
  k := k
  hint := 100
  extDataFile := ".unik"
  isStdin := fun f => f == "-"
  isStdout := fun f => f == "-"
  ropen := fun _ => none
  header := .ok K
  records := records
  readEnd := none
  wopen := fun _ => none
  writeErr := fun _ => none

/-- The world of `okWorld` in which the second call of `writer.Write` fails. -/
def writeFailWorld (K k : Nat) (records : List Nat) : World :=
  { okWorld K k records with writeErr := fun n => if n = 1 then some "no space left" else none }

/-- The world of `okWorld` in which reading the header fails. -/
def badHeaderWorld (k : Nat) : World :=
  { okWorld 0 k [] with header := .error "unexpected EOF" }

/-! ## Counting k-mers from a sequence -/

/-- The complementary nucleotide: `A` with `T`, `C` with `G`. -/
def complement (b : Nat) : Nat :=
  if b = 65 then 84
  else if b = 84 then 65
  else if b = 67 then 71
  else if b = 71 then 67
  else b

/-- The reverse complement of a sequence. -/
def revComp (s : List Nat) : List Nat :=
  (s.map complement).reverse

/-- Modelled from the spec: the k-mers of a sequence, its substrings of length
`k` from the first position to the last one that leaves room for `k` symbols
(the counting command is not part of the sources at hand). -/
def kmers (k : Nat) (s : List Nat) : List (List Nat) :=
  (List.range (s.length + 1 - k)).map (fun i => (s.drop i).take k)

/-- The `k`-mers of a sequence at its last `K - k` starting positions, those
that begin no `K`-mer. -/
def endKmers (K k : Nat) (s : List Nat) : List (List Nat) :=
  (List.range (K - k)).map (fun j => (s.drop (s.length + 1 - K + j)).take k)

/-- The distinct `k`-mers of a sequence and of its reverse complement that are
not the first `k` symbols of a `K`-mer of the sequence or of its reverse
complement: what taking beginnings of the stored `K`-mers loses. -/
def lostKmers (K k : Nat) (s : List Nat) : List (List Nat) :=
  ((kmers k s ++ kmers k (revComp s)).dedup).filter
    (fun m => !((kmers K s ++ kmers K (revComp s)).map (List.take k)).contains m)

/-- A byte that is one of the four nucleotide symbols `A`, `C`, `G`, `T`. -/
def isNucleotide (b : Nat) : Prop :=
  b = 65 ∨ b = 67 ∨ b = 71 ∨ b = 84

instance (b : Nat) : Decidable (isNucleotide b) := by
  unfold isNucleotide; infer_instance

/-- The contract of the membership structure: no false negatives. Once an item
was added, the test is true for it, whatever else was added before or after. -/
def NoFalseNegatives (F : ApproximateSet) : Prop :=
  ∀ (hint : Nat) (xs : List (List Nat)) (x : List Nat), x ∈ xs → F.test (F.addAll hint xs) x = true

/-- The symbols of the first `k` positions of a record of a stream of width `K`. -/
def kPrefix (K k : Nat) (r : Nat) : List Nat :=
  (KmerCode.Bytes ⟨r, K⟩).take k

/-- The membership test gives no false positive during the run of the loop on
`recs`: from the state `sbf` reached by adding `added`, each test that answers
true is for an item that was added before. -/
def noFalsePositive (F : ApproximateSet) (K k : Nat) :
    F.State → List (List Nat) → List Nat → Bool
  | _, _, [] => true
  | sbf, added, r :: rest =>
    if F.test sbf (kPrefix K k r) then
      added.contains (kPrefix K k r) && noFalsePositive F K k sbf added rest
    else noFalsePositive F K k (F.add sbf (kPrefix K k r)) (added ++ [kPrefix K k r]) rest

/-- The distinct elements of a list, each once, in order of first occurrence. -/
def distinctInOrder : List (List Nat) → List (List Nat)
  | [] => []
  | x :: xs => x :: (distinctInOrder xs).filter (fun y => y != x)

/-! ## The codec -/

theorem Decode_length (c L : Nat) : (Decode c L).length = L := by
  induction L generalizing c with
  | zero => rfl
  | succ L ih => simp [Decode, ih]

theorem bit2base_isNucleotide (n : Nat) : isNucleotide (bit2base n) := by
  unfold isNucleotide bit2base
  split_ifs <;> simp

theorem base2bit_bit2base (n : Nat) : base2bit (bit2base n) = some (n % 4) := by
  unfold base2bit bit2base
  have : n % 4 < 4 := Nat.mod_lt _ (by norm_num)
  split_ifs <;> simp_all
  omega

theorem base2bit_of_isNucleotide {b : Nat} (h : isNucleotide b) :
    ∃ v, v < 4 ∧ base2bit b = some v ∧ bit2base v = b := by
  rcases h with h | h | h | h <;> subst h
  · exact ⟨0, by decide, by decide, by decide⟩
  · exact ⟨1, by decide, by decide, by decide⟩
  · exact ⟨2, by decide, by decide, by decide⟩
  · exact ⟨3, by decide, by decide, by decide⟩

theorem Decode_isNucleotide (c L : Nat) : ∀ b ∈ Decode c L, isNucleotide b := by
  induction L generalizing c with
  | zero => simp [Decode]
  | succ L ih =>
    intro b hb
    simp only [Decode, List.mem_append, List.mem_singleton] at hb
    rcases hb with hb | hb
    · exact ih _ b hb
    · exact hb ▸ bit2base_isNucleotide c

theorem bit2base_mod (n : Nat) : bit2base (n % 4) = bit2base n := by
  unfold bit2base; simp

theorem Decode_take (c L k : Nat) (h : k ≤ L) :
    (Decode c L).take k = Decode (c / 4 ^ (L - k)) k := by
  induction L generalizing c with
  | zero =>
    have : k = 0 := by omega
    subst this; simp [Decode]
  | succ L ih =>
    rcases Nat.lt_or_ge k (L + 1) with hlt | hge
    · have hk : k ≤ L := by omega
      have h1 : L + 1 - k = (L - k) + 1 := by omega
      rw [Decode, List.take_append_of_le_length (by rw [Decode_length]; exact hk), ih _ hk,
        Nat.div_div_eq_div_mul, h1, pow_succ, Nat.mul_comm]
    · have : k = L + 1 := by omega
      subst this
      rw [List.take_of_length_le (by rw [Decode_length])]
      simp

theorem Decode_mod (c L : Nat) : Decode (c % 4 ^ L) L = Decode c L := by
  induction L generalizing c with
  | zero => rfl
  | succ L ih =>
    have h1 : c % 4 ^ (L + 1) / 4 = (c / 4) % 4 ^ L := by
      rw [pow_succ, Nat.mul_comm, Nat.mod_mul_right_div_self]
    have h2 : bit2base (c % 4 ^ (L + 1)) = bit2base c := by
      rw [← bit2base_mod, pow_succ, Nat.mod_mul_left_mod, bit2base_mod]
    rw [Decode, Decode, h1, h2, ih]

theorem encodeFrom_append (seq : List Nat) (acc : Nat) (xs ys : List Nat) :
    encodeFrom seq acc (xs ++ ys) =
      match encodeFrom seq acc xs with
      | .ok a => encodeFrom seq a ys
      | .error e => .error e := by
  induction xs generalizing acc with
  | nil => simp [encodeFrom]
  | cons x xs ih =>
    simp only [List.cons_append, encodeFrom]
    cases base2bit x with
    | none => rfl
    | some v => exact ih _

theorem encodeFrom_Decode (seq : List Nat) (acc c L : Nat) (hacc : acc < 2 ^ 64) :
    encodeFrom seq acc (Decode c L) = .ok ((acc * 4 ^ L + c % 4 ^ L) % 2 ^ 64) := by
  induction L generalizing c with
  | zero =>
    simp only [Decode, encodeFrom, pow_zero, Nat.mod_one, Nat.mul_one, Nat.add_zero]
    rw [Nat.mod_eq_of_lt hacc]
  | succ L ih =>
    rw [Decode, encodeFrom_append, ih]
    simp only [encodeFrom, base2bit_bit2base]
    have h1 : c % 4 ^ (L + 1) = c % 4 + 4 * (c / 4 % 4 ^ L) := by
      rw [pow_succ, Nat.mul_comm, Nat.mod_mul]
    have h2 : acc * 4 ^ (L + 1) = acc * 4 ^ L * 4 := by
      rw [pow_succ, Nat.mul_assoc]
    rw [h1, h2]
    generalize acc * 4 ^ L = A
    generalize c / 4 % 4 ^ L = B
    congr 1
    omega

theorem Encode_Decode (c L : Nat) (hL : L ≤ 32) : Encode (Decode c L) = .ok (c % 4 ^ L) := by
  unfold Encode
  rw [encodeFrom_Decode _ _ _ _ (by norm_num)]
  have h1 : c % 4 ^ L < 4 ^ L := Nat.mod_lt _ (by positivity)
  have h2 : 4 ^ L ≤ 4 ^ 32 := Nat.pow_le_pow_right (by norm_num) hL
  have h3 : c % 4 ^ L < 2 ^ 64 := by
    have : (4 : Nat) ^ 32 = 2 ^ 64 := by norm_num
    omega
  rw [Nat.zero_mul, Nat.zero_add, Nat.mod_eq_of_lt h3]

theorem NewKmerCode_Decode (c L : Nat) (hL : L ≤ 32) :
    NewKmerCode (Decode c L) = .ok ⟨c % 4 ^ L, L⟩ := by
  unfold NewKmerCode
  rw [Encode_Decode c L hL, Decode_length]

/-- On a code of width `K`, with `k ≤ K` and `k ≤ 32`, the transform of the
loop succeeds and delivers the first `k` symbols and their code. -/
theorem transform_eq (c K k : Nat) (hk : k ≤ K) (h32 : k ≤ 32) :
    transform k ⟨c, K⟩ =
      .ok ((Decode c K).take k, ⟨c / 4 ^ (K - k) % 4 ^ k, k⟩) := by
  unfold transform KmerCode.Bytes
  simp only [Decode_length, hk, if_true]
  rw [Decode_take c K k hk, NewKmerCode_Decode _ _ h32]

/-- Every sequence of nucleotides is the decoding of a code within its width. -/
theorem exists_code_of_nucleotides (seq : List Nat) (h : ∀ b ∈ seq, isNucleotide b) :
    ∃ c, c < 4 ^ seq.length ∧ Decode c seq.length = seq := by
  induction seq using List.reverseRecOn with
  | nil => exact ⟨0, by simp, rfl⟩
  | append_singleton xs b ih =>
    obtain ⟨c, hc, hd⟩ := ih (fun x hx => h x (by simp [hx]))
    obtain ⟨v, hv, -, hb⟩ := base2bit_of_isNucleotide (h b (by simp))
    refine ⟨c * 4 + v, ?_, ?_⟩
    · rw [List.length_append, List.length_singleton, pow_succ]; omega
    · rw [List.length_append, List.length_singleton, Decode]
      have h1 : (c * 4 + v) / 4 = c := by omega
      have h2 : bit2base (c * 4 + v) = bit2base v := by
        rw [← bit2base_mod]
        have : (c * 4 + v) % 4 = v := by omega
        rw [this]
      rw [h1, h2, hd, hb]

theorem truncate_eq (c K k : Nat) : truncate c K k = c / 4 ^ (K - k) := by
  unfold truncate
  rw [Nat.shiftRight_eq_div_pow, pow_mul]
  norm_num

theorem div_lt_of_lt_pow (c K k : Nat) (hk : k ≤ K) (hc : c < 4 ^ K) :
    c / 4 ^ (K - k) < 4 ^ k := by
  rw [Nat.div_lt_iff_lt_mul (by positivity), ← pow_add]
  have : k + (K - k) = K := by omega
  rw [this]; exact hc

/-! ## The loop -/

theorem written_append (xs ys : List Event) : written (xs ++ ys) = written xs ++ written ys := by
  induction xs with
  | nil => rfl
  | cons e es ih => cases e <;> simp [written, ih]

theorem mem_written {c : KmerCode} {es : List Event} : c ∈ written es ↔ Event.write c ∈ es := by
  induction es with
  | nil => simp [written]
  | cons e es ih => cases e <;> simp [written, ih]

/-- The code written for a record decodes to the first `k` symbols of the record. -/
theorem Decode_written (c K k : Nat) (hk : k ≤ K) :
    Decode (c / 4 ^ (K - k) % 4 ^ k) k = (Decode c K).take k := by
  rw [Decode_mod, Decode_take c K k hk]

/-- One turn of the loop, when the width of the stream is at least `k ≤ 32`. -/
theorem subsetLoop_cons (F : ApproximateSet) (w : World) (k K : Nat) (s : F.State) (n c : Nat)
    (rest : List Nat) (hk : k ≤ K) (h32 : k ≤ 32) :
    subsetLoop F w k K s n (c :: rest) =
      if F.test s ((Decode c K).take k) then subsetLoop F w k K s n rest
      else
        match w.writeErr n with
        | some e => checkError [] (.io e)
        | none =>
          ⟨.write ⟨c / 4 ^ (K - k) % 4 ^ k, k⟩ ::
              (subsetLoop F w k K (F.add s ((Decode c K).take k)) (n + 1) rest).events,
            (subsetLoop F w k K (F.add s ((Decode c K).take k)) (n + 1) rest).exit⟩ := by
  rw [subsetLoop, transform_eq c K k hk h32]

theorem subsetLoop_events (F : ApproximateSet) (w : World) (k K : Nat) (recs : List Nat) :
    ∀ (s : F.State) (n : Nat), ∀ e ∈ (subsetLoop F w k K s n recs).events,
      (∃ c, e = .write c) ∨ (∃ m, e = .logError m) := by
  induction recs with
  | nil =>
    intro s n e he
    unfold subsetLoop at he
    cases h : w.readEnd <;> simp [h, checkError] at he
    exact Or.inr ⟨_, he⟩
  | cons c rest ih =>
    intro s n e he
    unfold subsetLoop at he
    cases ht : transform k ⟨c, K⟩ with
    | panic => simp [ht] at he
    | fatal msg => simp [ht, checkError] at he; exact Or.inr ⟨_, he⟩
    | ok a =>
      obtain ⟨mer, kcode2⟩ := a
      simp only [ht] at he
      split_ifs at he with h1
      · exact ih _ _ e he
      · cases hw : w.writeErr n with
        | some err => simp [hw, checkError] at he; exact Or.inr ⟨_, he⟩
        | none =>
          simp only [hw, List.mem_cons] at he
          rcases he with he | he
          · exact Or.inl ⟨_, he⟩
          · exact ih _ _ e he

/-- The written codes of the loop have length `k` and a value below `4^k`. -/
theorem subsetLoop_written_width (F : ApproximateSet) (w : World) (k K : Nat)
    (hk : k ≤ K) (h32 : k ≤ 32) (recs : List Nat) :
    ∀ (s : F.State) (n : Nat), ∀ c ∈ written (subsetLoop F w k K s n recs).events,
      c.K = k ∧ c.Code < 4 ^ k := by
  induction recs with
  | nil =>
    intro s n c hc
    unfold subsetLoop at hc
    cases h : w.readEnd <;> simp [h, written, checkError] at hc
  | cons r rest ih =>
    intro s n c hc
    rw [subsetLoop_cons F w k K s n r rest hk h32] at hc
    split_ifs at hc with h1
    · exact ih _ _ c hc
    · cases hw : w.writeErr n with
      | some err => simp [hw, written, checkError] at hc
      | none =>
        simp only [hw, written, List.mem_cons] at hc
        rcases hc with hc | hc
        · subst hc
          exact ⟨rfl, Nat.mod_lt _ (by positivity)⟩
        · exact ih _ _ c hc

/-- The symbols of the written codes of the loop are a subsequence of the
`k`-symbol beginnings of the records. -/
theorem subsetLoop_sublist (F : ApproximateSet) (w : World) (k K : Nat)
    (hk : k ≤ K) (h32 : k ≤ 32) (recs : List Nat) :
    ∀ (s : F.State) (n : Nat),
      List.Sublist ((written (subsetLoop F w k K s n recs).events).map (fun c => Decode c.Code c.K))
        (recs.map (fun r => (KmerCode.Bytes ⟨r, K⟩).take k)) := by
  induction recs with
  | nil =>
    intro s n
    unfold subsetLoop
    cases h : w.readEnd <;> simp [written, checkError]
  | cons r rest ih =>
    intro s n
    rw [subsetLoop_cons F w k K s n r rest hk h32]
    split_ifs with h1
    · exact List.Sublist.cons _ (ih _ _)
    · cases hw : w.writeErr n with
      | some err => simp [written, checkError]
      | none =>
        simp only [written, List.map_cons, KmerCode.Bytes, Decode_written r K k hk]
        exact List.Sublist.cons₂ _ (ih _ _)

theorem addAll_concat (F : ApproximateSet) (hint : Nat) (xs : List (List Nat)) (x : List Nat) :
    F.addAll hint (xs ++ [x]) = F.add (F.addAll hint xs) x := by
  simp [ApproximateSet.addAll, List.foldl_append]

/-- With no false negatives, the symbols of the written codes of the loop are
pairwise different, and different from every item added before. -/
theorem subsetLoop_nodup (F : ApproximateSet) (w : World) (k K hint : Nat) (hF : NoFalseNegatives F)
    (hk : k ≤ K) (h32 : k ≤ 32) (recs : List Nat) :
    ∀ (added : List (List Nat)) (n : Nat),
      ((written (subsetLoop F w k K (F.addAll hint added) n recs).events).map
          (fun c => Decode c.Code c.K)).Nodup ∧
      ∀ m ∈ (written (subsetLoop F w k K (F.addAll hint added) n recs).events).map
          (fun c => Decode c.Code c.K), m ∉ added := by
  induction recs with
  | nil =>
    intro added n
    unfold subsetLoop
    cases h : w.readEnd <;> simp [written, checkError]
  | cons r rest ih =>
    intro added n
    rw [subsetLoop_cons F w k K _ n r rest hk h32]
    split_ifs with h1
    · exact ih added n
    · cases hw : w.writeErr n with
      | some err => simp [written, checkError]
      | none =>
        have hnot : (Decode r K).take k ∉ added := by
          intro hmem
          exact h1 (hF hint added _ hmem)
        obtain ⟨ih1, ih2⟩ := ih (added ++ [(Decode r K).take k]) (n + 1)
        rw [addAll_concat] at ih1 ih2
        simp only [written, List.map_cons, Decode_written r K k hk, List.nodup_cons,
          List.mem_cons]
        refine ⟨⟨?_, ih1⟩, ?_⟩
        · intro hmem
          exact ih2 _ hmem (by simp)
        · intro m hm
          rcases hm with hm | hm
          · rw [hm]; exact hnot
          · intro hmem
            exact ih2 m hm (by simp [hmem])

/-- With no false negatives and no false positive during the run, and no write
error, the loop writes the distinct beginnings that were not added before. -/
theorem subsetLoop_exact (F : ApproximateSet) (w : World) (k K hint : Nat) (hF : NoFalseNegatives F)
    (hk : k ≤ K) (h32 : k ≤ 32) (hw : ∀ n, w.writeErr n = none) (recs : List Nat) :
    ∀ (added : List (List Nat)) (n : Nat),
      noFalsePositive F K k (F.addAll hint added) added recs = true →
      (written (subsetLoop F w k K (F.addAll hint added) n recs).events).map
          (fun c => Decode c.Code c.K) =
        (distinctInOrder (recs.map (kPrefix K k))).filter (fun m => !added.contains m) := by
  induction recs with
  | nil =>
    intro added n _
    unfold subsetLoop
    cases h : w.readEnd <;> simp [written, distinctInOrder, checkError]
  | cons r rest ih =>
    intro added n hfp
    rw [subsetLoop_cons F w k K _ n r rest hk h32]
    unfold noFalsePositive at hfp
    simp only [kPrefix, KmerCode.Bytes] at hfp
    simp only [List.map_cons, distinctInOrder, kPrefix, KmerCode.Bytes]
    split_ifs with h1
    · rw [if_pos h1, Bool.and_eq_true] at hfp
      have hmem : (Decode r K).take k ∈ added := by simpa using hfp.1
      have := ih added n (by simpa [kPrefix, KmerCode.Bytes] using hfp.2)
      rw [this]
      rw [List.filter_cons_of_neg (by simpa using hmem), List.filter_filter]
      apply List.filter_congr
      intro y _
      by_cases hy : y ∈ added
      · simp [hy]
      · have : y ≠ (Decode r K).take k := fun h => hy (h ▸ hmem)
        simp [hy, this]
    · rw [if_neg h1] at hfp
      have hnot : (Decode r K).take k ∉ added := by
        intro hmem
        exact h1 (hF hint added _ hmem)
      have := ih (added ++ [(Decode r K).take k]) (n + 1)
        (by rw [addAll_concat]; simpa [kPrefix, KmerCode.Bytes] using hfp)
      rw [addAll_concat] at this
      simp only [hw n, written, List.map_cons, Decode_written r K k hk]
      rw [this]
      rw [List.filter_cons_of_pos (by simpa using hnot), List.filter_filter]
      congr 1
      apply List.filter_congr
      intro y _
      by_cases hy : y ∈ added
      · simp [hy]
      · by_cases hy2 : y = (Decode r K).take k
        · simp [hy2]
        · simp [hy, hy2]

/-! ## The run -/

/-- The run with the two flag checks written out. -/
theorem Run_eq (F : ApproximateSet) (w : World) :
    Run F w =
      if w.files.length > 1 then checkError [] .tooManyFiles
      else if w.k = 0 then checkError [] (.notPositive "kmer-len")
      else if w.k > 32 then checkError [] .kTooLarge
      else if w.hint = 0 then checkError [] (.notPositive "esti-kmer-num")
      else
        match w.files.head? with
        | none => ⟨[], .panicked⟩
        | some file =>
          if !w.isStdin file && !hasSuffix file w.extDataFile then
            ⟨[.logError (.badInput w.extDataFile)], .returned⟩
          else
            match w.ropen file with
            | some e => checkError [] (.io e)
            | none =>
              match w.header with
              | .error e => checkError [.openInput file] (.io e)
              | .ok K =>
                if w.k ≥ K then
                  ⟨[.openInput file, .logError (.kNotSmaller w.k K file), .closeInput], .returned⟩
                else
                  let outFile :=
                    if w.isStdout w.outFile then w.outFile else w.outFile ++ w.extDataFile
                  match w.wopen outFile with
                  | some e => checkError [.openInput file] (.io e)
                  | none =>
                    let start := [Event.openInput file, .openOutput outFile, .newWriter w.k]
                    let r := subsetLoop F w w.k K (F.init w.hint) 0 w.records
                    match r.exit with
                    | .exited => ⟨start ++ r.events, .exited⟩
                    | e => ⟨start ++ r.events ++ [.closeOutput, .closeInput], e⟩ := by
  unfold Run getFlagPositiveInt
  by_cases h1 : w.files.length > 1
  · simp only [h1, if_true]
  by_cases h2 : w.k = 0
  · simp only [h1, h2, if_true, if_false]
  by_cases h3 : w.k > 32
  · simp only [h1, h2, h3, if_true, if_false]
  by_cases h4 : w.hint = 0
  · simp only [h1, h2, h3, h4, if_true, if_false]
  simp only [h1, h2, h3, h4, if_false]

/-- A run either stops before the output is opened, or is the loop between the
opening events and (unless the process exits) the deferred closes. -/
theorem Run_cases (F : ApproximateSet) (w : World) :
    (∀ e ∈ (Run F w).events, (∃ m, e = .logError m) ∨ (∃ f, e = .openInput f) ∨ e = .closeInput) ∨
    ∃ K file outFile tail, w.header = .ok K ∧ w.k < K ∧ 0 < w.k ∧ w.k ≤ 32 ∧
      (Run F w).events = [.openInput file, .openOutput outFile, .newWriter w.k] ++
        (subsetLoop F w w.k K (F.init w.hint) 0 w.records).events ++ tail ∧
      (tail = [] ∨ tail = [.closeOutput, .closeInput]) := by
  rw [Run_eq]
  by_cases h1 : w.files.length > 1
  · left; simp [h1, checkError]
  by_cases h2 : w.k = 0
  · left; simp [h1, h2, checkError]
  by_cases h3 : w.k > 32
  · left; simp [h1, h2, h3, checkError]
  by_cases h4 : w.hint = 0
  · left; simp [h1, h2, h3, h4, checkError]
  simp only [h1, h2, h3, h4, if_false]
  rcases hf : w.files.head? with _ | file
  · left; simp
  by_cases h5 : (!w.isStdin file && !hasSuffix file w.extDataFile) = true
  · left; simp [h5]
  simp only [h5, if_false]
  rcases ho : w.ropen file with _ | e
  swap
  · left; simp [checkError]
  rcases hh : w.header with e | K
  · left; simp [checkError]
  by_cases h6 : w.k ≥ K
  · left; simp [h6]
  simp only [h6, if_false]
  generalize (if w.isStdout w.outFile = true then w.outFile else w.outFile ++ w.extDataFile) = outFile
  rcases hw : w.wopen outFile with _ | e
  swap
  · left; simp [checkError]
  right
  refine ⟨K, file, outFile, ?_⟩
  rcases hl : (subsetLoop F w w.k K (F.init w.hint) 0 w.records).exit
  · exact ⟨_, rfl, by omega, by omega, by omega, by simp [hl], Or.inr rfl⟩
  · exact ⟨[], rfl, by omega, by omega, by omega, by simp [hl], Or.inl rfl⟩
  · exact ⟨_, rfl, by omega, by omega, by omega, by simp [hl], Or.inr rfl⟩

theorem written_Run (F : ApproximateSet) (w : World) :
    written (Run F w).events = [] ∨
    ∃ K, w.header = .ok K ∧ w.k < K ∧ w.k ≤ 32 ∧
      written (Run F w).events = written (subsetLoop F w w.k K (F.init w.hint) 0 w.records).events := by
  rcases Run_cases F w with h | ⟨K, file, outFile, tail, hK, hkK, -, h32, hev, htail⟩
  · left
    rw [List.eq_nil_iff_forall_not_mem]
    intro c hc
    rw [mem_written] at hc
    rcases h _ hc with ⟨m, hm⟩ | ⟨f, hf⟩ | h'
    · cases hm
    · cases hf
    · cases h'
  · right
    refine ⟨K, hK, hkK, h32, ?_⟩
    rw [hev, written_append, written_append]
    rcases htail with ht | ht <;> subst ht <;> simp [written]

/-- A request that passes every check reaches the loop: with one accepted input
file that opens, a header of width `K`, `0 < k < K`, `k ≤ 32`, a positive hint
and an output that opens, the run is the opening events, the events of the
loop and, unless the process exits, the deferred closes. -/
theorem Run_of_valid (F : ApproximateSet) (w : World) (file : String) (K : Nat)
    (hfiles : w.files = [file])
    (hname : w.isStdin file = true ∨ hasSuffix file w.extDataFile = true)
    (hopen : w.ropen file = none) (hK : w.header = .ok K)
    (hk0 : 0 < w.k) (hkK : w.k < K) (h32 : w.k ≤ 32) (hhint : 0 < w.hint)
    (hwopen : w.wopen (if w.isStdout w.outFile then w.outFile
      else w.outFile ++ w.extDataFile) = none) :
    ∃ tail, (Run F w).events =
        [.openInput file,
          .openOutput (if w.isStdout w.outFile then w.outFile else w.outFile ++ w.extDataFile),
          .newWriter w.k] ++
        (subsetLoop F w w.k K (F.init w.hint) 0 w.records).events ++ tail ∧
      (tail = [] ∨ tail = [.closeOutput, .closeInput]) := by
  rw [Run_eq]
  have h1 : ¬ w.files.length > 1 := by rw [hfiles]; simp
  have h2 : ¬ w.k = 0 := by omega
  have h3 : ¬ w.k > 32 := by omega
  have h4 : ¬ w.hint = 0 := by omega
  have hf : w.files.head? = some file := by rw [hfiles]; rfl
  have h5 : ¬ (!w.isStdin file && !hasSuffix file w.extDataFile) = true := by
    rcases hname with hn | hn <;> simp [hn]
  have h6 : ¬ w.k ≥ K := by omega
  simp only [h1, h2, h3, h4, h5, h6, hf, hopen, hK, hwopen, if_false]
  rcases hl : (subsetLoop F w w.k K (F.init w.hint) 0 w.records).exit
  · exact ⟨_, rfl, Or.inr rfl⟩
  · exact ⟨[], by simp, Or.inl rfl⟩
  · exact ⟨_, rfl, Or.inr rfl⟩

theorem exactSet_noFalseNegatives : NoFalseNegatives exactSet := by
  intro hint xs x hx
  have key : ∀ (ys : List (List Nat)) (s : List (List Nat)), x ∈ ys ∨ x ∈ s →
      x ∈ ys.foldl (fun s y => y :: s) s := by
    intro ys
    induction ys with
    | nil => intro s h; simpa using h
    | cons y ys ih =>
      intro s h
      apply ih
      rcases h with h | h
      · rcases List.mem_cons.1 h with h | h
        · right; simp [h]
        · left; exact h
      · right; simp [h]
  have := key xs [] (Or.inl hx)
  simpa [exactSet, ApproximateSet.addAll] using this

theorem lossySet_noFalseNegatives : NoFalseNegatives lossySet := by
  intro hint xs x hx
  have key : ∀ (ys : List (List Nat)) (s : List Nat), x ∈ ys ∨ x.sum % 8 ∈ s →
      x.sum % 8 ∈ ys.foldl (fun s y => (y.sum % 8) :: s) s := by
    intro ys
    induction ys with
    | nil => intro s h; simpa using h
    | cons y ys ih =>
      intro s h
      apply ih
      rcases h with h | h
      · rcases List.mem_cons.1 h with h | h
        · right; simp [h]
        · left; exact h
      · right; simp [h]
  have := key xs [] (Or.inl hx)
  simpa [lossySet, ApproximateSet.addAll] using this

/-! ## k-mers lost at the ends -/

/-- A `k`-mer of a sequence begins a `K`-mer of it, or starts at one of the last
`K - k` positions. -/
theorem kmers_covered (K k : Nat) (hkK : k ≤ K) (t : List Nat) :
    ∀ m ∈ kmers k t, m ∈ (kmers K t).map (List.take k) ∨ m ∈ endKmers K k t := by
  intro m hm
  simp only [kmers, List.mem_map, List.mem_range] at hm
  obtain ⟨i, hi, rfl⟩ := hm
  rcases Nat.lt_or_ge i (t.length + 1 - K) with h | h
  · left
    simp only [kmers, List.map_map, List.mem_map, List.mem_range, Function.comp]
    refine ⟨i, h, ?_⟩
    rw [List.take_take, Nat.min_eq_left hkK]
  · right
    simp only [endKmers, List.mem_map, List.mem_range]
    refine ⟨i - (t.length + 1 - K), by omega, ?_⟩
    have : t.length + 1 - K + (i - (t.length + 1 - K)) = i := by omega
    rw [this]

theorem endKmers_length (K k : Nat) (t : List Nat) : (endKmers K k t).length = K - k := by
  simp [endKmers]

end Unikmer

open Unikmer

/-- C1. For `1 ≤ k < K ≤ 32` and every nucleotide sequence `seq` of length `K`,
`seq` encodes to a code, and on that code the transform of the subset loop
delivers the symbols `seq[0:k]` and a code that is `NewKmerCode(seq[0:k])` and
also the pure bit-shift truncation `code >> 2*(K-k)` with length `k`. -/
theorem transform_refines_truncate (k K : Nat) (seq : List Nat)
    (_hk : 1 ≤ k) (hkK : k < K) (hK : K ≤ 32)
    (hlen : seq.length = K) (hseq : ∀ b ∈ seq, isNucleotide b) :
    ∃ code kcode2, Encode seq = .ok code ∧
      transform k ⟨code, K⟩ = .ok (seq.take k, kcode2) ∧
      NewKmerCode (seq.take k) = .ok kcode2 ∧
      kcode2 = ⟨truncate code K k, k⟩ := by
  obtain ⟨c, hc, hd⟩ := exists_code_of_nucleotides seq hseq
  rw [hlen] at hc hd
  have hlt : c / 4 ^ (K - k) < 4 ^ k := div_lt_of_lt_pow c K k (by omega) hc
  have henc : Encode seq = .ok c := by
    rw [← hd, Encode_Decode c K hK, Nat.mod_eq_of_lt hc]
  have htr := transform_eq c K k (by omega) (by omega)
  rw [hd, Nat.mod_eq_of_lt hlt] at htr
  refine ⟨c, ⟨c / 4 ^ (K - k), k⟩, henc, htr, ?_, ?_⟩
  · rw [← hd, Decode_take c K k (by omega), NewKmerCode_Decode _ _ (by omega),
      Nat.mod_eq_of_lt hlt]
  · rw [truncate_eq]

theorem transform_refines_truncate_witness :
    ∃ code kcode2, Encode [65, 65, 67, 71, 84, 67, 65, 65, 65, 65] = .ok code ∧
      transform 5 ⟨code, 10⟩ = .ok ([65, 65, 67, 71, 84, 67, 65, 65, 65, 65].take 5, kcode2) ∧
      NewKmerCode ([65, 65, 67, 71, 84, 67, 65, 65, 65, 65].take 5) = .ok kcode2 ∧
      kcode2 = ⟨truncate code 10 5, 5⟩ :=
  transform_refines_truncate 5 10 [65, 65, 67, 71, 84, 67, 65, 65, 65, 65]
    (by decide) (by decide) (by decide) (by decide) (by decide)

/-- C2. For every run and every membership structure without false negatives,
the records written by the subset loop decode to pairwise different `k`-symbol
sequences, whatever the false positives of the structure. -/
theorem written_nodup (F : ApproximateSet) (w : World) (hF : NoFalseNegatives F) :
    ((written (Run F w).events).map (fun c => Decode c.Code c.K)).Nodup := by
  rcases written_Run F w with h | ⟨K, -, hkK, h32, h⟩
  · rw [h]; exact List.nodup_nil
  · rw [h]
    have := (subsetLoop_nodup F w w.k K w.hint hF (by omega) h32 w.records [] 0).1
    simpa [ApproximateSet.addAll] using this

theorem written_nodup_witness :
    ((written (Run lossySet (okWorld 10 5 [27648, 27904, 77056, 1025280])).events).map
      (fun c => Decode c.Code c.K)).Nodup :=
  written_nodup lossySet (okWorld 10 5 [27648, 27904, 77056, 1025280]) lossySet_noFalseNegatives

/-- C3. For every run on a stream whose header declares the width `K`, and every
behaviour of the membership test, the symbols of the written records are a
subsequence of the `k`-symbol beginnings of the input records: the loop may
leave a record out, and adds none. -/
theorem written_sublist (F : ApproximateSet) (w : World) (K : Nat) (hK : w.header = .ok K) :
    List.Sublist ((written (Run F w).events).map (fun c => Decode c.Code c.K))
      (w.records.map (kPrefix K w.k)) := by
  rcases written_Run F w with h | ⟨K', hK', hkK, h32, h⟩
  · rw [h]; exact List.nil_sublist _
  · rw [hK] at hK'
    cases hK'
    rw [h]
    exact subsetLoop_sublist F w w.k K (by omega) h32 w.records _ _

theorem written_sublist_witness :
    List.Sublist
      ((written (Run lossySet (okWorld 10 5 [27648, 27904, 77056, 1025280])).events).map
        (fun c => Decode c.Code c.K))
      ((okWorld 10 5 [27648, 27904, 77056, 1025280]).records.map (kPrefix 10 5)) :=
  written_sublist lossySet (okWorld 10 5 [27648, 27904, 77056, 1025280]) 10 rfl

/-- C4. For every input stream of width `K` and every `k` with `0 < k < K`,
`k ≤ 32`, on a request that passes the checks before the loop (one accepted
input file that opens, a positive hint, an output that opens) and whose writes
do not fail: when the membership structure, which has no false negatives, gives
no false positive during the run, the written records decode to exactly the
distinct `k`-symbol beginnings of the input records, each once, in order of
first occurrence. -/
theorem written_exact (F : ApproximateSet) (w : World) (file : String) (K : Nat)
    (hF : NoFalseNegatives F)
    (hfiles : w.files = [file])
    (hname : w.isStdin file = true ∨ hasSuffix file w.extDataFile = true)
    (hopen : w.ropen file = none) (hK : w.header = .ok K)
    (hk0 : 0 < w.k) (hkK : w.k < K) (h32 : w.k ≤ 32) (hhint : 0 < w.hint)
    (hwopen : w.wopen (if w.isStdout w.outFile then w.outFile
      else w.outFile ++ w.extDataFile) = none)
    (hw : ∀ n, w.writeErr n = none)
    (hfp : noFalsePositive F K w.k (F.init w.hint) [] w.records = true) :
    (written (Run F w).events).map (fun c => Decode c.Code c.K) =
      distinctInOrder (w.records.map (kPrefix K w.k)) := by
  obtain ⟨tail, hev, htail⟩ :=
    Run_of_valid F w file K hfiles hname hopen hK hk0 hkK h32 hhint hwopen
  have hwr : written (Run F w).events =
      written (subsetLoop F w w.k K (F.init w.hint) 0 w.records).events := by
    rw [hev, written_append, written_append]
    rcases htail with ht | ht <;> subst ht <;> simp [written]
  rw [hwr]
  have := subsetLoop_exact F w w.k K w.hint hF (by omega) h32 hw w.records [] 0
    (by simpa [ApproximateSet.addAll] using hfp)
  simpa [ApproximateSet.addAll] using this

theorem written_exact_witness :
    (written (Run lossySet (okWorld 10 5 [27648, 27904, 1025280])).events).map
        (fun c => Decode c.Code c.K) =
      distinctInOrder ((okWorld 10 5 [27648, 27904, 1025280]).records.map (kPrefix 10 5)) ∧
    distinctInOrder ((okWorld 10 5 [27648, 27904, 1025280]).records.map (kPrefix 10 5)) =
      [[65, 65, 67, 71, 84], [84, 84, 71, 71, 67]] :=
  ⟨written_exact lossySet (okWorld 10 5 [27648, 27904, 1025280]) "in.unik" 10
    lossySet_noFalseNegatives rfl (by decide) rfl rfl (by decide) (by decide) (by decide)
    (by decide) rfl (fun _ => rfl) (by decide), by decide⟩

/-- C5. For every request with `k > 32`, or with `k` at least the width `K`
declared by the header of an accepted and opened input, the run is refused with
a parameter error: that error is the only thing logged, no output file is
opened, no writer is made and no record is written. -/
theorem refused_before_output (F : ApproximateSet) (w : World) (file : String) (K : Nat)
    (h : 32 < w.k ∨
      (w.files.head? = some file ∧
        (w.isStdin file = true ∨ hasSuffix file w.extDataFile = true) ∧
        w.ropen file = none ∧ w.header = .ok K ∧ K ≤ w.k)) :
    (∃ m, m.isParameterError = true ∧
      ((Run F w).events = [.logError m] ∨
        (Run F w).events = [.openInput file, .logError m, .closeInput])) ∧
    ∀ e ∈ (Run F w).events,
      (∀ f, e ≠ .openOutput f) ∧ (∀ n, e ≠ .newWriter n) ∧ (∀ c, e ≠ .write c) := by
  have key : ∃ m, m.isParameterError = true ∧
      ((Run F w).events = [.logError m] ∨
        (Run F w).events = [.openInput file, .logError m, .closeInput]) := by
    rw [Run_eq]
    by_cases h1 : w.files.length > 1
    · exact ⟨.tooManyFiles, rfl, Or.inl (by simp [h1, checkError])⟩
    by_cases h2 : w.k = 0
    · exact ⟨.notPositive "kmer-len", rfl, Or.inl (by simp [h1, h2, checkError])⟩
    by_cases h3 : w.k > 32
    · exact ⟨.kTooLarge, rfl, Or.inl (by simp [h1, h2, h3, checkError])⟩
    by_cases h4 : w.hint = 0
    · exact ⟨.notPositive "esti-kmer-num", rfl, Or.inl (by simp [h1, h2, h3, h4, checkError])⟩
    rcases h with h | ⟨hf, hname, ho, hh, hk⟩
    · exact absurd h h3
    · have h5 : ¬ (!w.isStdin file && !hasSuffix file w.extDataFile) = true := by
        rcases hname with hn | hn <;> simp [hn]
      exact ⟨.kNotSmaller w.k K file, rfl, Or.inr (by simp [h1, h2, h3, h4, hf, h5, ho, hh, hk])⟩
  refine ⟨key, ?_⟩
  obtain ⟨m, -, hev | hev⟩ := key
  · intro e he
    rw [hev] at he
    simp only [List.mem_singleton] at he
    subst he
    simp
  · intro e he
    rw [hev] at he
    simp only [List.mem_cons, List.mem_singleton, List.not_mem_nil, or_false] at he
    rcases he with he | he | he <;> subst he <;> simp

theorem refused_before_output_witness :
    (∃ m, m.isParameterError = true ∧
      ((Run exactSet (okWorld 21 25 [5, 6])).events = [.logError m] ∨
        (Run exactSet (okWorld 21 25 [5, 6])).events =
          [.openInput "in.unik", .logError m, .closeInput])) ∧
    ∀ e ∈ (Run exactSet (okWorld 21 25 [5, 6])).events,
      (∀ f, e ≠ .openOutput f) ∧ (∀ n, e ≠ .newWriter n) ∧ (∀ c, e ≠ .write c) :=
  refused_before_output exactSet (okWorld 21 25 [5, 6]) "in.unik" 21
    (Or.inr ⟨by decide, by decide, by decide, by decide, by decide⟩)

/-- C6 (the code departs from it). With a header of width `K = 21` and the
request `k = 21`, a validation failure, the run logs the error and returns: the
exit status is zero, as it is for an input name that is neither stdin nor a
data file, while the failures that go through `checkError` exit non-zero. -/
theorem validation_failure_exits_zero :
    (Run exactSet (okWorld 21 21 [5, 6])).events =
      [.openInput "in.unik", .logError (.kNotSmaller 21 21 "in.unik"), .closeInput] ∧
    (Run exactSet (okWorld 21 21 [5, 6])).exit.nonZero = false ∧
    (Run exactSet { okWorld 21 5 [5, 6] with files := ["in.txt"] }).events =
      [.logError (.badInput ".unik")] ∧
    (Run exactSet { okWorld 21 5 [5, 6] with files := ["in.txt"] }).exit.nonZero = false ∧
    (Run exactSet (okWorld 21 40 [5, 6])).exit.nonZero = true := by
  decide

/-- C7 (the code departs from it). When the second write fails, the run leaves
through `checkError` after one record was written: the process exits and
neither deferred close runs, so the output is not flushed and no stream is
closed. The same holds for the input stream when reading the header fails. -/
theorem exit_skips_deferred_close :
    (Run exactSet (writeFailWorld 10 5 [27648, 1025280])).events =
      [.openInput "in.unik", .openOutput "out.unik", .newWriter 5, .write ⟨27, 5⟩,
        .logError (.io "no space left")] ∧
    (Run exactSet (writeFailWorld 10 5 [27648, 1025280])).exit = .exited ∧
    Event.closeOutput ∉ (Run exactSet (writeFailWorld 10 5 [27648, 1025280])).events ∧
    Event.closeInput ∉ (Run exactSet (writeFailWorld 10 5 [27648, 1025280])).events ∧
    (Run exactSet (badHeaderWorld 5)).events =
      [.openInput "in.unik", .logError (.io "unexpected EOF")] ∧
    (Run exactSet (okWorld 10 5 [27648, 1025280])).events =
      [.openInput "in.unik", .openOutput "out.unik", .newWriter 5, .write ⟨27, 5⟩,
        .write ⟨1001, 5⟩, .closeOutput, .closeInput] := by
  decide

/-- C9. For every well-formed code of a stream of width `K ≤ 32` and every `k`
with `1 ≤ k < K`, the per-record transform cannot fail: the decoded sequence
has length `K`, so the slice `mer[0:k]` is in bounds, every symbol of the slice
is a nucleotide, and `NewKmerCode` returns a code and no error. -/
theorem transform_cannot_fail (c K k : Nat) (_hk : 1 ≤ k) (hkK : k < K) (hK : K ≤ 32)
    (_hc : c < 4 ^ K) :
    (KmerCode.Bytes ⟨c, K⟩).length = K ∧
    k ≤ (KmerCode.Bytes ⟨c, K⟩).length ∧
    (∀ b ∈ (KmerCode.Bytes ⟨c, K⟩).take k, isNucleotide b) ∧
    ∃ kcode2, NewKmerCode ((KmerCode.Bytes ⟨c, K⟩).take k) = .ok kcode2 ∧
      transform k ⟨c, K⟩ = .ok ((KmerCode.Bytes ⟨c, K⟩).take k, kcode2) := by
  have hlen : (KmerCode.Bytes ⟨c, K⟩).length = K := Decode_length c K
  refine ⟨hlen, by omega, ?_, ⟨c / 4 ^ (K - k) % 4 ^ k, k⟩, ?_, ?_⟩
  · intro b hb
    exact Decode_isNucleotide c K b (List.mem_of_mem_take hb)
  · show NewKmerCode ((Decode c K).take k) = _
    rw [Decode_take c K k (by omega), NewKmerCode_Decode _ _ (by omega)]
  · exact transform_eq c K k (by omega) (by omega)

theorem transform_cannot_fail_witness :
    (KmerCode.Bytes ⟨27648, 10⟩).length = 10 ∧
    5 ≤ (KmerCode.Bytes ⟨27648, 10⟩).length ∧
    (∀ b ∈ (KmerCode.Bytes ⟨27648, 10⟩).take 5, isNucleotide b) ∧
    ∃ kcode2, NewKmerCode ((KmerCode.Bytes ⟨27648, 10⟩).take 5) = .ok kcode2 ∧
      transform 5 ⟨27648, 10⟩ = .ok ((KmerCode.Bytes ⟨27648, 10⟩).take 5, kcode2) :=
  transform_cannot_fail 27648 10 5 (by decide) (by decide) (by decide) (by decide)

/-- C10. In every run, a writer is made only with the width `k` of the request,
and only when the header declares a larger width `K`; every code passed to the
writer has length `k` and a value below `4^k`. -/
theorem writer_width_respected (F : ApproximateSet) (w : World) :
    (∀ n, Event.newWriter n ∈ (Run F w).events →
      n = w.k ∧ ∃ K, w.header = .ok K ∧ w.k < K) ∧
    (∀ c, Event.write c ∈ (Run F w).events →
      Event.newWriter w.k ∈ (Run F w).events ∧ c.K = w.k ∧ c.Code < 4 ^ w.k) := by
  rcases Run_cases F w with h | ⟨K, file, outFile, tail, hK, hkK, -, h32, hev, htail⟩
  · constructor
    · intro n hn
      rcases h _ hn with ⟨m, hm⟩ | ⟨f, hf⟩ | h'
      · cases hm
      · cases hf
      · cases h'
    · intro c hc
      rcases h _ hc with ⟨m, hm⟩ | ⟨f, hf⟩ | h'
      · cases hm
      · cases hf
      · cases h'
  · have hloop := subsetLoop_events F w w.k K w.records (F.init w.hint) 0
    constructor
    · intro n hn
      rw [hev] at hn
      simp only [List.mem_append, List.mem_cons, List.not_mem_nil, or_false] at hn
      rcases hn with ((hn | hn | hn) | hn) | hn
      · cases hn
      · cases hn
      · cases hn
        exact ⟨rfl, K, hK, hkK⟩
      · rcases hloop _ hn with ⟨c, hc⟩ | ⟨m, hm⟩
        · cases hc
        · cases hm
      · rcases htail with ht | ht <;> subst ht <;> simp at hn
    · intro c hc
      refine ⟨by rw [hev]; simp, ?_⟩
      have hc' : c ∈ written (Run F w).events := mem_written.2 hc
      have hwr : written (Run F w).events =
          written (subsetLoop F w w.k K (F.init w.hint) 0 w.records).events := by
        rw [hev, written_append, written_append]
        rcases htail with ht | ht <;> subst ht <;> simp [written]
      rw [hwr] at hc'
      exact subsetLoop_written_width F w w.k K (by omega) h32 w.records _ _ c hc'

theorem writer_width_respected_witness :
    (5 = (okWorld 10 5 [27648, 27904, 1025280]).k ∧
      ∃ K, (okWorld 10 5 [27648, 27904, 1025280]).header = .ok K ∧
        (okWorld 10 5 [27648, 27904, 1025280]).k < K) ∧
    (Event.newWriter (okWorld 10 5 [27648, 27904, 1025280]).k ∈
        (Run exactSet (okWorld 10 5 [27648, 27904, 1025280])).events ∧
      (KmerCode.mk 1001 5).K = (okWorld 10 5 [27648, 27904, 1025280]).k ∧
      (KmerCode.mk 1001 5).Code < 4 ^ (okWorld 10 5 [27648, 27904, 1025280]).k) :=
  ⟨(writer_width_respected exactSet (okWorld 10 5 [27648, 27904, 1025280])).1 5 (by decide),
    (writer_width_respected exactSet (okWorld 10 5 [27648, 27904, 1025280])).2 ⟨1001, 5⟩
      (by decide)⟩

/-- C8. For every sequence `s` of length at least `K` and every `1 ≤ k < K`, at
most `(K-k)*2` distinct `k`-mers of `s` and of its reverse complement are not
the first `k` symbols of any `K`-mer of `s` or of its reverse complement. -/
theorem lostKmers_le (K k : Nat) (s : List Nat) (_hk : 1 ≤ k) (hkK : k < K)
    (_hn : K ≤ s.length) :
    (lostKmers K k s).length ≤ (K - k) * 2 := by
  have hnd : (lostKmers K k s).Nodup := (List.nodup_dedup _).filter _
  have hsub : lostKmers K k s ⊆ endKmers K k s ++ endKmers K k (revComp s) := by
    intro m hm
    have hm1 : m ∈ kmers k s ∨ m ∈ kmers k (revComp s) := by
      have := (List.mem_filter.1 hm).1
      rwa [List.mem_dedup, List.mem_append] at this
    have hm' : ¬ m ∈ (kmers K s ++ kmers K (revComp s)).map (List.take k) := by
      have := (List.mem_filter.1 hm).2
      simpa using this
    rw [List.map_append, List.mem_append, not_or] at hm'
    obtain ⟨hm2, hm3⟩ := hm'
    rw [List.mem_append]
    rcases hm1 with h | h
    · rcases kmers_covered K k (by omega) s m h with h' | h'
      · exact absurd h' hm2
      · exact Or.inl h'
    · rcases kmers_covered K k (by omega) (revComp s) m h with h' | h'
      · exact absurd h' hm3
      · exact Or.inr h'
  have := (List.subperm_of_subset hnd hsub).length_le
  rw [List.length_append, endKmers_length, endKmers_length] at this
  omega

theorem lostKmers_le_witness :
    (lostKmers 4 2 [65, 67, 71, 84, 84, 65]).length ≤ (4 - 2) * 2 :=
  lostKmers_le 4 2 [65, 67, 71, 84, 84, 65] (by decide) (by decide) (by decide)

